import Mathlib

/-!
# Verification of the xsdcoverage XML-schema coverage toolkit

This file gives a shallow embedding, in Lean 4, of the parts of the
xsdcoverage Python sources that the specification's testable properties
talk about, and proves or refutes those properties against the embedding.

Embedding conventions:
* Python sets of path strings become `Finset String` or `List String`.
* Python dicts with `.get(k, default)` become total functions or
  association lists queried with `List.find?`.
* The global `random` module is modelled as a stream of naturals
  (`List Nat`) consumed left to right: `random.randint(a, b)` consumes the
  head `h` and yields `a + h % (b - a + 1)`; `random.choice(l)` consumes
  the head `h` and yields `l[h % len(l)]`.  All theorems about random
  behaviour are quantified over every stream, which subsumes every seed.
* Python float arithmetic in the set-cover scorer is modelled by exact
  rational arithmetic (`ℚ`).
-/

namespace XsdCoverage

/-! ## Coverage reporter (`xsd_coverage.py`, class `CoverageReporter`) -/

/-- Embeds `CoverageReporter._calculate_coverage`: returns
`len(used & defined) / len(defined) * 100`, and `0.0` when `defined`
is empty. -/
def calculateCoverage (defined used : Finset String) : ℚ :=
  if defined.card = 0 then 0
  else ((used ∩ defined).card : ℚ) / (defined.card : ℚ) * 100

/-- Embeds the three percentage figures computed by
`CoverageReporter.generate_report`: the element coverage, the attribute
coverage (both via `_calculate_coverage`), and the combined coverage
`total_covered / total_defined * 100` guarded by `total_defined > 0`.
The sets are, in order, defined elements, defined attributes, used
elements, used attributes. -/
def generateReportFigures (dE dA uE uA : Finset String) : ℚ × ℚ × ℚ :=
  let coveredElements := uE ∩ dE
  let coveredAttributes := uA ∩ dA
  let elementCoverage := calculateCoverage dE uE
  let attributeCoverage := calculateCoverage dA uA
  let totalDefined : Nat := dE.card + dA.card
  let totalCovered : Nat := coveredElements.card + coveredAttributes.card
  let totalCoverage : ℚ :=
    if 0 < totalDefined then (totalCovered : ℚ) / (totalDefined : ℚ) * 100 else 0
  (elementCoverage, attributeCoverage, totalCoverage)

/-- C8: with nonempty defined sets, the per-category percentages reported
are `|E_def ∩ E_used| / |E_def| * 100` and `|A_def ∩ A_used| / |A_def| * 100`,
and the combined percentage is
`(|E_def ∩ E_used| + |A_def ∩ A_used|) / (|E_def| + |A_def|) * 100`. -/
theorem reporter_percentages (dE dA uE uA : Finset String)
    (hE : 0 < dE.card) (hA : 0 < dA.card) :
    (generateReportFigures dE dA uE uA).1
        = ((dE ∩ uE).card : ℚ) / (dE.card : ℚ) * 100 ∧
    (generateReportFigures dE dA uE uA).2.1
        = ((dA ∩ uA).card : ℚ) / (dA.card : ℚ) * 100 ∧
    (generateReportFigures dE dA uE uA).2.2
        = (((dE ∩ uE).card + (dA ∩ uA).card : ℚ))
            / ((dE.card + dA.card : ℚ)) * 100 := by
  have hE' : dE.card ≠ 0 := Nat.pos_iff_ne_zero.mp hE
  have hA' : dA.card ≠ 0 := Nat.pos_iff_ne_zero.mp hA
  have hT : 0 < dE.card + dA.card := Nat.lt_of_lt_of_le hE (Nat.le_add_right _ _)
  refine ⟨?_, ?_, ?_⟩
  · simp [generateReportFigures, calculateCoverage, hE', Finset.inter_comm uE dE]
  · simp [generateReportFigures, calculateCoverage, hA', Finset.inter_comm uA dA]
  · simp only [generateReportFigures, hT, if_pos, Finset.inter_comm uE dE,
      Finset.inter_comm uA dA]
    push_cast
    ring

/-- Witness for `reporter_percentages` at concrete sets. -/
theorem reporter_percentages_witness :
    (generateReportFigures {"/R"} {"/R@a"} {"/R"} (∅ : Finset String)).2.2
      = ((({"/R"} : Finset String) ∩ {"/R"}).card
          + ((({"/R@a"} : Finset String)) ∩ (∅ : Finset String)).card : ℚ)
          / ((({"/R"} : Finset String).card + ({"/R@a"} : Finset String).card : ℚ)) * 100 :=
  (reporter_percentages {"/R"} {"/R@a"} {"/R"} ∅ (by decide) (by decide)).2.2

/-- C9: the coverage computation is total on empty inputs: with an empty
defined set `_calculate_coverage` returns `0.0` for every used set, and
with no defined paths at all the combined percentage is `0`; the zero
denominators are never divided by. -/
theorem reporter_total_on_empty (uE uA : Finset String) :
    calculateCoverage ∅ uE = 0 ∧
    calculateCoverage ∅ uA = 0 ∧
    (generateReportFigures ∅ ∅ uE uA).2.2 = 0 ∧
    (generateReportFigures ∅ ∅ uE uA).1 = 0 ∧
    (generateReportFigures ∅ ∅ uE uA).2.1 = 0 := by
  refine ⟨?_, ?_, ?_, ?_, ?_⟩ <;>
    simp [calculateCoverage, generateReportFigures]

/-! ## Used-path analyzer (`xsd_coverage.py`, class `XMLCoverageAnalyzer`) -/

/-- A qualified XML name as lxml's `QName` decomposes it: an optional
namespace URI and a local name.  `QName(x).localname` is `localName`. -/
structure QualifiedName where
  nsUri : Option String
  localName : String
  deriving DecidableEq, Repr

/-- An XML element tree: qualified tag, attributes (qualified name and
value, in document order), and child elements. -/
inductive XmlElem : Type where
  | node (tag : QualifiedName) (attribs : List (QualifiedName × String))
      (children : List XmlElem)
  deriving Repr

/-- The attribute local names skipped by
`XMLCoverageAnalyzer._process_element`
(`['schemaLocation', 'type', 'nil']`). -/
def excludedAttrNames : List String := ["schemaLocation", "type", "nil"]

/-- Embeds `XMLCoverageAnalyzer._process_element`: walking an element under
`parentPath` records the element path `parentPath/localname`, records
`currentPath@attrname` for each attribute whose local name is not excluded,
and recurses into the children.  Returns the recorded
(element paths, attribute paths). -/
def processElement (e : XmlElem) (parentPath : String) :
    List String × List String :=
  match e with
  | .node tag attribs children =>
    let currentPath := parentPath ++ "/" ++ tag.localName
    let attrPaths := attribs.foldl (fun acc a =>
      if excludedAttrNames.contains a.1.localName then acc
      else acc ++ [currentPath ++ "@" ++ a.1.localName]) []
    let rest := children.attach.map (fun c => processElement c.1 currentPath)
    (currentPath :: (rest.map Prod.fst).flatten,
     attrPaths ++ (rest.map Prod.snd).flatten)
termination_by sizeOf e
decreasing_by
  have h := List.sizeOf_lt_of_mem c.2
  simp only [XmlElem.node.sizeOf_spec]
  omega

/-- All attribute occurrences of a document below `parentPath`, with no
exclusion: pairs of (owning element path, attribute local name).  This is
the specification-side enumeration against which the analyzer's filter is
compared. -/
def allAttrOccurrences (e : XmlElem) (parentPath : String) :
    List (String × String) :=
  match e with
  | .node tag attribs children =>
    let currentPath := parentPath ++ "/" ++ tag.localName
    attribs.map (fun a => (currentPath, a.1.localName))
      ++ (children.attach.map (fun c => allAttrOccurrences c.1 currentPath)).flatten
termination_by sizeOf e
decreasing_by
  have h := List.sizeOf_lt_of_mem c.2
  simp only [XmlElem.node.sizeOf_spec]
  omega

/-- The claim's characterization: the recorded attribute paths are exactly
the occurrences whose local name is not excluded, rendered as
`elementPath@localName`. -/
def recordedAttrPathsSpec (e : XmlElem) (parentPath : String) : List String :=
  ((allAttrOccurrences e parentPath).filter
      (fun o => !(excludedAttrNames.contains o.2))).map
    (fun o => o.1 ++ "@" ++ o.2)

/-- The attribute loop of `_process_element` is a filter-and-map. -/
theorem attrFold_eq_filterMap (currentPath : String)
    (l : List (QualifiedName × String)) (acc : List String) :
    l.foldl (fun acc a =>
        if excludedAttrNames.contains a.1.localName then acc
        else acc ++ [currentPath ++ "@" ++ a.1.localName]) acc
      = acc ++ (l.filter (fun a => !(excludedAttrNames.contains a.1.localName))).map
          (fun a => currentPath ++ "@" ++ a.1.localName) := by
  induction l generalizing acc with
  | nil => simp
  | cons a l ih =>
    cases hb : excludedAttrNames.contains a.1.localName with
    | true =>
      simp only [List.foldl_cons, List.filter_cons, hb, if_true,
        Bool.not_true, ite_false, ih]
      simp
    | false =>
      simp only [List.foldl_cons, List.filter_cons, hb, Bool.not_false,
        ite_false, ite_true, ih, List.map_cons]
      simp

/-- C10: for every input XML document, the analyzer records an attribute
path for an attribute occurrence if and only if the attribute's local name
is not one of `schemaLocation`, `type`, `nil`: the recorded attribute
paths are exactly the non-excluded occurrences. -/
theorem analyzer_records_iff_not_excluded :
    ∀ (e : XmlElem) (parentPath : String),
      (processElement e parentPath).2 = recordedAttrPathsSpec e parentPath
  | .node tag attribs children, parentPath => by
    have ih : ∀ c ∈ children, ∀ p,
        (processElement c p).2 = recordedAttrPathsSpec c p := by
      intro c hc p
      exact analyzer_records_iff_not_excluded c p
    simp only [processElement, recordedAttrPathsSpec, allAttrOccurrences]
    rw [attrFold_eq_filterMap]
    simp only [List.nil_append, List.filter_append, List.map_append,
      List.filter_map, List.map_map, List.filter_flatten, List.map_flatten]
    congr 1
    refine congrArg List.flatten ?_
    apply List.map_congr_left
    intro c hc
    simp only [Function.comp_apply]
    rw [ih c.1 c.2]
    simp [recordedAttrPathsSpec, Function.comp_def]
termination_by e => sizeOf e
decreasing_by
  have h := List.sizeOf_lt_of_mem hc
  simp only [XmlElem.node.sizeOf_spec]
  omega

/-! ## The `random` module model -/

/-- `random.randint(a, b)` on a stream of naturals: consumes the head `h`
and yields `a + h % (b - a + 1)` together with the rest of the stream. -/
def randint (a b : Nat) (s : List Nat) : Nat × List Nat :=
  (a + s.headD 0 % (b - a + 1), s.tail)

/-- `random.choice(l)` on a stream of naturals: consumes the head `h` and
yields the element at index `h % len(l)`. -/
def randChoice (l : List String) (s : List Nat) : String × List Nat :=
  (l.getD (s.headD 0 % l.length) "", s.tail)

/-- An index of the form `h % l.length` lands inside a nonempty list. -/
theorem getD_mod_mem {l : List String} (h : Nat) (hl : 0 < l.length) (d : String) :
    l.getD (h % l.length) d ∈ l := by
  have hlt : h % l.length < l.length := Nat.mod_lt _ hl
  rw [List.getD_eq_getElem l d hlt]
  exact List.getElem_mem hlt

/-! ## Pairwise generator (`pairwise_generator.py` and
`pairwise_generator_scalable.py`) -/

/-- Embeds `_are_in_same_choice_group` (identical in
`PairwiseCoverageGenerator` and `ScalablePairwiseCoverageGenerator`):
two paths are siblings iff some choice group contains both.  Choice
groups are modelled as the list of the dict's values. -/
def areInSameChoiceGroup (path1 path2 : String)
    (choiceGroups : List (List String)) : Bool :=
  choiceGroups.any (fun g => g.contains path1 && g.contains path2)

/-- One step of `_adjust_for_choice_constraints`: for a single choice
group whose `true_paths` (the members currently assigned `True`) number
more than one, `random.choice` selects one of them (here: the entry at
`pick % len(true_paths)`) and every other member of `true_paths` is set
to `False`. -/
def adjustGroup (pick : Nat) (g : List String) (a : String → Bool) :
    String → Bool :=
  let truePaths := g.filter a
  let selected := truePaths.getD (pick % truePaths.length) ""
  fun p => if p ∈ truePaths ∧ p ≠ selected then false else a p

/-- Embeds `_adjust_for_choice_constraints` (identical in both pairwise
generator modules): the assignment dict (modelled as a total function,
`dict.get(p, False)`) is copied and each choice group with more than one
`True` member is reduced to a single seeded-random `True`.  The RNG
stream is consumed once per adjusted group. -/
def adjustForChoiceConstraints (rng : List Nat)
    (choiceGroups : List (List String)) (a : String → Bool) : String → Bool :=
  match choiceGroups with
  | [] => a
  | g :: gs =>
    if 1 < (g.filter a).length then
      adjustForChoiceConstraints rng.tail gs (adjustGroup (rng.headD 0) g a)
    else
      adjustForChoiceConstraints rng gs a

/-- `itertools.combinations(paths, 2)`: all ordered-by-position pairs of
the list. -/
def listCombos : List String → List (String × String)
  | [] => []
  | x :: xs => xs.map (fun y => (x, y)) ++ listCombos xs

/-- Embeds the `TestPattern` dataclass: id, assignments
(`dict.get(path, False)` modelled as a total function) and the covered
pairs computed by `_create_pattern`. -/
structure TestPattern where
  patternId : Nat
  assignments : String → Bool
  coveredPairs : List ((String × Bool) × (String × Bool))

/-- Embeds `PairwiseCoverageGenerator._create_pattern`: adjust the
assignments for the choice constraints, then record
`((p1, v1), (p2, v2))` for every combination of two parameter paths. -/
def createPattern (rng : List Nat) (patternId : Nat) (paths : List String)
    (assignments : String → Bool) (choiceGroups : List (List String)) :
    TestPattern :=
  let adjusted := adjustForChoiceConstraints rng choiceGroups assignments
  let coveredPairs := (listCombos paths).map
    (fun pr => ((pr.1, adjusted pr.1), (pr.2, adjusted pr.2)))
  ⟨patternId, adjusted, coveredPairs⟩

/-- A list of length at most one has only equal members. -/
theorem eq_of_len_le_one {α : Type} {l : List α} (h : l.length ≤ 1)
    {p q : α} (hp : p ∈ l) (hq : q ∈ l) : p = q := by
  match l with
  | [] => cases hp
  | [x] =>
    rw [List.mem_singleton] at hp hq
    rw [hp, hq]
  | x :: y :: l => simp at h

/-- `adjustGroup` never turns a `False` assignment into `True`. -/
theorem adjustGroup_true_imp {pick : Nat} {g : List String}
    {a : String → Bool} {p : String} (h : adjustGroup pick g a p = true) :
    a p = true := by
  unfold adjustGroup at h
  split at h
  · cases h
  · exact h

/-- `adjustForChoiceConstraints` never turns a `False` assignment into
`True`. -/
theorem adjust_true_imp :
    ∀ (groups : List (List String)) (rng : List Nat) (a : String → Bool)
      (p : String), adjustForChoiceConstraints rng groups a p = true →
      a p = true := by
  intro groups
  induction groups with
  | nil => intro rng a p h; exact h
  | cons g gs ih =>
    intro rng a p h
    unfold adjustForChoiceConstraints at h
    split at h
    · exact adjustGroup_true_imp (ih _ _ _ h)
    · exact ih _ _ _ h

/-- After `adjustGroup` runs on a group, at most one member of that group
is assigned `True`. -/
theorem adjustGroup_atMostOne {pick : Nat} {g : List String}
    {a : String → Bool} {p q : String} (hp : p ∈ g) (hq : q ∈ g)
    (hpt : adjustGroup pick g a p = true)
    (hqt : adjustGroup pick g a q = true) : p = q := by
  have hap : a p = true := adjustGroup_true_imp hpt
  have haq : a q = true := adjustGroup_true_imp hqt
  have hpf : p ∈ g.filter a := List.mem_filter.mpr ⟨hp, hap⟩
  have hqf : q ∈ g.filter a := List.mem_filter.mpr ⟨hq, haq⟩
  unfold adjustGroup at hpt hqt
  split at hpt
  · cases hpt
  · split at hqt
    · cases hqt
    · rename_i hcp hcq
      push_neg at hcp hcq
      rw [hcp hpf, hcq hqf]

/-- C2: every `TestPattern` produced by `_create_pattern` (hence the
all-True seed, the all-False seed and every greedy candidate, in both
pairwise generator modules) assigns `True` to at most one member of each
choice group, for every RNG stream, parameter list and input
assignment. -/
theorem pattern_choice_exclusion (rng : List Nat) (patternId : Nat)
    (paths : List String) (assignments : String → Bool)
    (choiceGroups : List (List String)) (g : List String)
    (hg : g ∈ choiceGroups) (p q : String) (hp : p ∈ g) (hq : q ∈ g)
    (hpt : (createPattern rng patternId paths assignments choiceGroups).assignments p = true)
    (hqt : (createPattern rng patternId paths assignments choiceGroups).assignments q = true) :
    p = q := by
  have key : ∀ (groups : List (List String)) (rng : List Nat)
      (a : String → Bool), g ∈ groups →
      adjustForChoiceConstraints rng groups a p = true →
      adjustForChoiceConstraints rng groups a q = true → p = q := by
    intro groups
    induction groups with
    | nil => intro rng a hmem; cases hmem
    | cons g' gs ih =>
      intro rng a hmem h1 h2
      unfold adjustForChoiceConstraints at h1 h2
      rcases List.mem_cons.mp hmem with hgg | hgs
      · subst hgg
        split at h1 <;> rename_i hlen
        · split at h2
          · exact adjustGroup_atMostOne hp hq
              (adjust_true_imp _ _ _ _ h1) (adjust_true_imp _ _ _ _ h2)
          · omega
        · split at h2
          · omega
          · push_neg at hlen
            exact eq_of_len_le_one hlen
              (List.mem_filter.mpr ⟨hp, adjust_true_imp _ _ _ _ h1⟩)
              (List.mem_filter.mpr ⟨hq, adjust_true_imp _ _ _ _ h2⟩)
      · split at h1 <;> split at h2 <;> first
          | exact ih _ _ hgs h1 h2
          | omega
  exact key choiceGroups rng assignments hg hpt hqt

/-- Witness for `pattern_choice_exclusion` at a concrete input: two
alternatives of one choice group, both requested `True`; the adjusted
pattern keeps `"a"` and the theorem applies. -/
theorem pattern_choice_exclusion_witness :
    (["a", "b"] ∈ [[ "a", "b" ]]) ∧
    (createPattern [0] 0 ["a", "b"] (fun p => (["a", "b"] : List String).contains p)
        [["a", "b"]]).assignments "a" = true ∧
    ("a" : String) = "a" :=
  ⟨by decide, by decide,
    pattern_choice_exclusion [0] 0 ["a", "b"]
      (fun p => (["a", "b"] : List String).contains p) [["a", "b"]]
      ["a", "b"] (by decide) "a" "a" (by decide) (by decide)
      (by decide) (by decide)⟩

/-! ## Value synthesis (`pairwise_xml_builder.py` and `xml_generator.py`) -/

/-- Python's `s.split(':')` over the character list (kernel-reducible,
unlike `String.splitOn`). -/
def splitColonAux : List Char → List Char → List (List Char)
  | [], cur => [cur.reverse]
  | c :: cs, cur =>
    if c = ':' then cur.reverse :: splitColonAux cs []
    else splitColonAux cs (c :: cur)

/-- Python's `s.split(':')`. -/
def splitColon (s : String) : List String :=
  (splitColonAux s.data []).map (fun l => String.mk l)

/-- Python's `':' in s`. -/
def hasColon (s : String) : Bool :=
  s.data.contains ':'

/-- Embeds `PairwiseXMLBuilder._get_enumeration_values`: the type name is
reduced to its local part (`type_name.split(':')[-1]`, as in
`_find_type_definition`) and looked up in the table of simpleType
enumeration facets; a missing type or a type without enumerations yields
`[]`. -/
def getEnumerationValues (simpleTypeEnums : List (String × List String))
    (typeName : String) : List String :=
  let localName := (splitColon typeName).getLastD typeName
  ((simpleTypeEnums.find? (fun kv => kv.1 == localName)).map Prod.snd).getD []

/-- Embeds `PairwiseXMLBuilder._generate_dummy_value`: the first
enumeration value when the type has enumerations, otherwise the built-in
`type_mapping` table keyed on `xs:{local_type}`, defaulting to
`{name}_value`. -/
def generateDummyValue (simpleTypeEnums : List (String × List String))
    (name attrType : String) : String :=
  match getEnumerationValues simpleTypeEnums attrType with
  | v :: _ => v
  | [] =>
    let typeMapping : List (String × String) :=
      [("xs:string", name ++ "_value"), ("xs:int", "1"), ("xs:integer", "1"),
       ("xs:decimal", "1.0"), ("xs:float", "1.0"), ("xs:double", "1.0"),
       ("xs:boolean", "true"), ("xs:date", "2024-01-01"),
       ("xs:dateTime", "2024-01-01T00:00:00"), ("xs:time", "12:00:00"),
       ("xs:base64Binary", "U2FtcGxlRGF0YQ=="), ("xs:hexBinary", "48656C6C6F")]
    let localType :=
      if hasColon attrType then (splitColon attrType).getLastD attrType
      else attrType
    ((typeMapping.find? (fun kv => kv.1 == "xs:" ++ localType)).map Prod.snd).getD
      (name ++ "_value")

/-- Embeds `XMLGenerator._get_enum_values`: look the (already
prefix-stripped) type name up in the type cache and collect its
enumeration values; `[]` when the type is unknown or not enumerated. -/
def getEnumValues (typeEnums : List (String × List String))
    (typeName : String) : List String :=
  ((typeEnums.find? (fun kv => kv.1 == typeName)).map Prod.snd).getD []

/-- Embeds `XMLGenerator._generate_sample_value`: the `type_samples` dict
is rebuilt on every call, so the three `random.randint` calls in its
`ID`, `NCName` and `token` entries always consume the RNG stream, in that
order; the requested entry (default `'DefaultValue'`) is then returned. -/
def generateSampleValue (typeName : String) (s : List Nat) :
    String × List Nat :=
  let r1 := randint 1000 9999 s
  let r2 := randint 100 999 r1.2
  let r3 := randint 100 999 r2.2
  let typeSamples : List (String × String) :=
    [("string", "SampleText"), ("integer", "42"), ("int", "42"),
     ("long", "1234567890"), ("short", "100"), ("byte", "10"),
     ("decimal", "123.45"), ("float", "123.45"), ("double", "123.456789"),
     ("boolean", "true"), ("date", "2025-01-15"),
     ("dateTime", "2025-01-15T10:30:00"), ("time", "10:30:00"),
     ("anyURI", "http://example.com"), ("base64Binary", "QmFzZTY0RGF0YQ=="),
     ("hexBinary", "48656C6C6F"), ("ID", "ID" ++ toString r1.1),
     ("NCName", "NCName" ++ toString r2.1), ("token", "Token" ++ toString r3.1)]
  (((typeSamples.find? (fun kv => kv.1 == typeName)).map Prod.snd).getD
      "DefaultValue",
   r3.2)

/-- Embeds the attribute-value branch of `XMLGenerator._add_attributes`:
when the cleaned attribute type has enumeration values the value is
`random.choice(enum_values)`, otherwise `_generate_sample_value`. -/
def addAttributeValue (typeEnums : List (String × List String))
    (cleanAttrType : String) (s : List Nat) : String × List Nat :=
  match getEnumValues typeEnums cleanAttrType with
  | [] => generateSampleValue cleanAttrType s
  | v :: vs => randChoice (v :: vs) s

/-- C4 counterexample: for an attribute whose simpleType is restricted to
`X`, `Y`, `Z`, the set-cover generator's `_add_attributes` draws a random
enumeration member, and on an RNG stream starting with `1` it produces
`"Y"`, not the first enumeration value `"X"`. -/
theorem enum_attribute_not_always_first :
    (addAttributeValue [("XYZType", ["X", "Y", "Z"])] "XYZType" [1]).1 = "Y"
      ∧ ("Y" : String) ≠ "X" := by
  constructor
  · rfl
  · decide

/-- C4 (amended): when the type resolves to a simpleType with
enumerations, the pairwise builder's `_generate_dummy_value` returns the
first enumeration value, while the set-cover generator's attribute
synthesis returns a seeded-random member of the enumeration (some
member, not necessarily the first). -/
theorem enum_value_synthesis (simpleTypeEnums : List (String × List String))
    (name attrType : String) (v : String) (vs : List String)
    (h : getEnumerationValues simpleTypeEnums attrType = v :: vs)
    (typeEnums : List (String × List String)) (cleanType : String)
    (w : String) (ws : List String) (s : List Nat)
    (h2 : getEnumValues typeEnums cleanType = w :: ws) :
    generateDummyValue simpleTypeEnums name attrType = v ∧
    (addAttributeValue typeEnums cleanType s).1 ∈ w :: ws := by
  constructor
  · unfold generateDummyValue
    rw [h]
  · unfold addAttributeValue
    rw [h2]
    simp only [randChoice]
    exact getD_mod_mem _ (by simp) _

/-- Witness for `enum_value_synthesis` at a prefixed type name and a
concrete RNG stream. -/
theorem enum_value_synthesis_witness :
    generateDummyValue [("XYZType", ["X", "Y", "Z"])] "Status" "my:XYZType" = "X" ∧
    (addAttributeValue [("XYZType", ["X", "Y", "Z"])] "XYZType" [2]).1
      ∈ ["X", "Y", "Z"] :=
  enum_value_synthesis [("XYZType", ["X", "Y", "Z"])] "Status" "my:XYZType"
    "X" ["Y", "Z"] (by decide) [("XYZType", ["X", "Y", "Z"])] "XYZType"
    "X" ["Y", "Z"] [2] (by decide)

/-- C3 counterexample: the sample value synthesized for type `ID` differs
between two runs started in different RNG states (`ID1000` vs `ID1001`),
and the set-cover pipeline never seeds the global RNG, so the generated
value is not a function of the declared inputs alone. -/
theorem sample_value_depends_on_rng_state :
    (generateSampleValue "ID" [0]).1 ≠ (generateSampleValue "ID" [1]).1 := by
  decide

/-- C3 (amended): each sample value is a deterministic function of the
type name and of the RNG state at the call — `ID` values are
`"ID" ++ (1000 + h % 9000)` for head `h`, `NCName` values read the second
stream element, and non-random entries such as `string` and `boolean` are
state-independent.  The pairwise pipeline seeds the global RNG at
generator construction, but the set-cover pipeline declares no seed, so
its `ID`/`NCName`/`token` values and enumeration picks vary with the
process's RNG state. -/
theorem sample_value_state_characterization (s : List Nat) :
    (generateSampleValue "ID" s).1 = "ID" ++ toString (1000 + s.headD 0 % 9000) ∧
    (generateSampleValue "NCName" s).1
      = "NCName" ++ toString (100 + s.tail.headD 0 % 900) ∧
    (generateSampleValue "token" s).1
      = "Token" ++ toString (100 + s.tail.tail.headD 0 % 900) ∧
    (generateSampleValue "string" s).1 = "SampleText" ∧
    (generateSampleValue "boolean" s).1 = "true" := by
  exact ⟨rfl, rfl, rfl, rfl, rfl⟩

/-! ## Choice materialization (`pairwise_xml_builder.py` and
`xml_generator.py`) -/

/-- Embeds `PairwiseXMLBuilder._process_choice_with_pattern`: iterate the
alternatives of the `choice` in document order; the first alternative
whose path `parent/name` is in the pattern's included (True) paths is
built and appended, and the loop breaks; alternatives whose paths are not
included are skipped.  The emitted alternatives are abstracted by their
names (within the depth bound the recursive build returns an element). -/
def processChoiceWithPattern (alternatives : List String)
    (parentPath : String) (includedPaths : List String) : List String :=
  match alternatives with
  | [] => []
  | a :: rest =>
    if includedPaths.contains (parentPath ++ "/" ++ a) then [a]
    else processChoiceWithPattern rest parentPath includedPaths

/-- Embeds the `choice` branch of `XMLGenerator._build_element`: the
alternatives are reduced to the single entry at index
`choice_index % len(elements)`, which is then emitted unless it is
optional (`minOccurs = 0`) and `include_optional` is false.  Alternatives
are (name, minOccurs) pairs. -/
def chooseAlternativeSetCover (alternatives : List (String × Nat))
    (choiceIndex : Nat) (includeOptional : Bool) : List String :=
  match alternatives with
  | [] => []
  | _ :: _ =>
    let sel := alternatives.getD (choiceIndex % alternatives.length) ("", 1)
    if sel.2 = 0 ∧ includeOptional = false then [] else [sel.1]

/-- C5 counterexample: with a choice of alternatives `A`, `B` and a
pattern that assigns no alternative `True` (for example the all-False
seed pattern), the pairwise builder emits no alternative at all — there
is no fallback to the first alternative, and the emitted count is 0, not
exactly 1. -/
theorem pairwise_choice_no_fallback :
    processChoiceWithPattern ["A", "B"] "/R" [] = []
      ∧ (processChoiceWithPattern ["A", "B"] "/R" []).length ≠ 1 := by
  constructor
  · rfl
  · decide

/-- C5 (amended): the pairwise builder emits exactly the first
alternative (in document order) whose path is assigned `True`, and
nothing when no alternative is assigned `True`; the set-cover builder
with `include_optional = true` emits exactly the alternative at index
`choice_index mod N`. -/
theorem choice_materialization (alternatives : List String)
    (parentPath : String) (includedPaths : List String)
    (csAlternatives : List (String × Nat)) (i : Nat)
    (h : csAlternatives ≠ []) :
    processChoiceWithPattern alternatives parentPath includedPaths
      = (alternatives.find?
          (fun a => includedPaths.contains (parentPath ++ "/" ++ a))).toList ∧
    chooseAlternativeSetCover csAlternatives i true
      = [(csAlternatives.getD (i % csAlternatives.length) ("", 1)).1] := by
  constructor
  · induction alternatives with
    | nil => rfl
    | cons a rest ih =>
      unfold processChoiceWithPattern
      rw [List.find?_cons]
      cases hb : includedPaths.contains (parentPath ++ "/" ++ a) with
      | true => simp [hb]
      | false => simp [hb, ih]
  · match csAlternatives, h with
    | x :: xs, _ =>
      simp [chooseAlternativeSetCover]

/-- Witness for `choice_materialization` at concrete alternatives. -/
theorem choice_materialization_witness :
    processChoiceWithPattern ["A", "B"] "/R" ["/R/B"]
      = ((["A", "B"] : List String).find?
          (fun a => (["/R/B"] : List String).contains ("/R" ++ "/" ++ a))).toList ∧
    chooseAlternativeSetCover [("A", 1), ("B", 0)] 3 true
      = [(([("A", 1), ("B", 0)] : List (String × Nat)).getD (3 % 2) ("", 1)).1] :=
  choice_materialization ["A", "B"] "/R" ["/R/B"] [("A", 1), ("B", 0)] 3
    (by decide)

/-! ## Pair enumeration and counting (`pairwise_generator.py`
`_enumerate_all_pairs`, `pairwise_generator_scalable.py`
`_count_total_pairs`) -/

/-- The value combinations contributed by one ordered parameter pair in
`_enumerate_all_pairs`: three combinations (no `(True, True)`) for
choice siblings, four otherwise, in the source's insertion order. -/
def pairCombosFor (p1 p2 : String) (choiceGroups : List (List String)) :
    List ((String × Bool) × (String × Bool)) :=
  if areInSameChoiceGroup p1 p2 choiceGroups then
    [((p1, true), (p2, false)), ((p1, false), (p2, true)),
     ((p1, false), (p2, false))]
  else
    [((p1, true), (p2, true)), ((p1, true), (p2, false)),
     ((p1, false), (p2, true)), ((p1, false), (p2, false))]

/-- The pair blocks of `_enumerate_all_pairs`, concatenated over a list
of parameter combinations. -/
def enumeratePairsAux (choiceGroups : List (List String)) :
    List (String × String) → List ((String × Bool) × (String × Bool))
  | [] => []
  | pr :: rest =>
    pairCombosFor pr.1 pr.2 choiceGroups ++ enumeratePairsAux choiceGroups rest

/-- Embeds `PairwiseCoverageGenerator._enumerate_all_pairs`: for every
`itertools.combinations(paths, 2)` pair, add the valid value
combinations.  The Python set is modelled as this list; `Nodup` below
shows the list is duplicate-free, so its length is the set's
cardinality. -/
def enumerateAllPairs (paths : List String)
    (choiceGroups : List (List String)) :
    List ((String × Bool) × (String × Bool)) :=
  enumeratePairsAux choiceGroups (listCombos paths)

/-- Embeds `ScalablePairwiseCoverageGenerator._count_total_pairs`:
`count += 3` for choice-sibling combinations, `count += 4` otherwise. -/
def countTotalPairs (paths : List String)
    (choiceGroups : List (List String)) : Nat :=
  (listCombos paths).foldl
    (fun count pr =>
      count + if areInSameChoiceGroup pr.1 pr.2 choiceGroups then 3 else 4) 0

/-- Each combination block has 3 or 4 entries. -/
theorem pairCombosFor_length (p1 p2 : String)
    (choiceGroups : List (List String)) :
    (pairCombosFor p1 p2 choiceGroups).length
      = if areInSameChoiceGroup p1 p2 choiceGroups then 3 else 4 := by
  unfold pairCombosFor
  split <;> rfl

/-- Every entry of a combination block carries its combination's paths. -/
theorem pairCombosFor_paths {p1 p2 : String}
    {choiceGroups : List (List String)}
    {e : (String × Bool) × (String × Bool)}
    (h : e ∈ pairCombosFor p1 p2 choiceGroups) :
    e.1.1 = p1 ∧ e.2.1 = p2 := by
  unfold pairCombosFor at h
  split at h <;> simp only [List.mem_cons, List.not_mem_nil, or_false] at h <;>
    rcases h with rfl | rfl | rfl | rfl <;> exact ⟨rfl, rfl⟩

/-- Each combination block is duplicate-free. -/
theorem pairCombosFor_nodup (p1 p2 : String)
    (choiceGroups : List (List String)) :
    (pairCombosFor p1 p2 choiceGroups).Nodup := by
  unfold pairCombosFor
  split <;> simp

/-- The paths of an enumerated entry come from the combination list. -/
theorem mem_enumeratePairsAux {choiceGroups : List (List String)} :
    ∀ {l : List (String × String)} {e : (String × Bool) × (String × Bool)},
      e ∈ enumeratePairsAux choiceGroups l → (e.1.1, e.2.1) ∈ l := by
  intro l
  induction l with
  | nil => intro e h; cases h
  | cons pr rest ih =>
    intro e h
    unfold enumeratePairsAux at h
    rcases List.mem_append.mp h with hb | hr
    · obtain ⟨h1, h2⟩ := pairCombosFor_paths hb
      rw [List.mem_cons]
      left
      rw [h1, h2]
    · exact List.mem_cons_of_mem _ (ih hr)

/-- The components of a `listCombos` pair are members of the path list. -/
theorem listCombos_mem :
    ∀ {paths : List String} {pr : String × String},
      pr ∈ listCombos paths → pr.1 ∈ paths ∧ pr.2 ∈ paths := by
  intro paths
  induction paths with
  | nil => intro pr h; cases h
  | cons x xs ih =>
    intro pr h
    unfold listCombos at h
    rcases List.mem_append.mp h with hm | hr
    · obtain ⟨y, hy, rfl⟩ := List.mem_map.mp hm
      exact ⟨List.mem_cons_self _ _, List.mem_cons_of_mem _ hy⟩
    · obtain ⟨h1, h2⟩ := ih hr
      exact ⟨List.mem_cons_of_mem _ h1, List.mem_cons_of_mem _ h2⟩

/-- `itertools.combinations` of a duplicate-free list is
duplicate-free. -/
theorem listCombos_nodup {paths : List String} (h : paths.Nodup) :
    (listCombos paths).Nodup := by
  induction paths with
  | nil => exact List.nodup_nil
  | cons x xs ih =>
    obtain ⟨hx, hxs⟩ := List.nodup_cons.mp h
    unfold listCombos
    refine List.Nodup.append ?_ (ih hxs) ?_
    · exact hxs.map (fun a b hab => (Prod.mk.injEq _ _ _ _ ▸ hab).2)
    · intro pr hm hr
      obtain ⟨y, _, rfl⟩ := List.mem_map.mp hm
      exact hx (listCombos_mem hr).1

/-- The enumerated pair list over a duplicate-free combination list is
duplicate-free. -/
theorem enumeratePairsAux_nodup {choiceGroups : List (List String)} :
    ∀ {l : List (String × String)}, l.Nodup →
      (enumeratePairsAux choiceGroups l).Nodup := by
  intro l
  induction l with
  | nil => intro _; exact List.nodup_nil
  | cons pr rest ih =>
    intro hl
    obtain ⟨hpr, hrest⟩ := List.nodup_cons.mp hl
    unfold enumeratePairsAux
    refine List.Nodup.append (pairCombosFor_nodup _ _ _) (ih hrest) ?_
    intro e he hr
    obtain ⟨h1, h2⟩ := pairCombosFor_paths he
    have := mem_enumeratePairsAux hr
    rw [h1, h2] at this
    exact hpr this

/-- The enumerated length is the sum of the block sizes. -/
theorem enumeratePairsAux_length {choiceGroups : List (List String)} :
    ∀ l : List (String × String),
      (enumeratePairsAux choiceGroups l).length
        = (l.map (fun pr =>
            if areInSameChoiceGroup pr.1 pr.2 choiceGroups then 3 else 4)).sum := by
  intro l
  induction l with
  | nil => rfl
  | cons pr rest ih =>
    unfold enumeratePairsAux
    rw [List.length_append, pairCombosFor_length, ih, List.map_cons,
      List.sum_cons]

/-- A left fold of additions is the initial value plus the mapped sum. -/
theorem foldl_add_eq (f : (String × String) → Nat) :
    ∀ (l : List (String × String)) (n : Nat),
      l.foldl (fun acc pr => acc + f pr) n = n + (l.map f).sum := by
  intro l
  induction l with
  | nil => intro n; simp
  | cons pr rest ih =>
    intro n
    rw [List.foldl_cons, ih, List.map_cons, List.sum_cons]
    omega

/-- Per-combination count of enumerated entries. -/
theorem countP_enumeratePairsAux {choiceGroups : List (List String)} :
    ∀ (l : List (String × String)), l.Nodup →
      ∀ pr ∈ l,
        (enumeratePairsAux choiceGroups l).countP
            (fun e => e.1.1 == pr.1 && e.2.1 == pr.2)
          = if areInSameChoiceGroup pr.1 pr.2 choiceGroups then 3 else 4 := by
  intro l
  induction l with
  | nil => intro _ pr h; cases h
  | cons pr' rest ih =>
    intro hl pr hpr
    obtain ⟨hpr', hrest⟩ := List.nodup_cons.mp hl
    unfold enumeratePairsAux
    rw [List.countP_append]
    rcases List.mem_cons.mp hpr with rfl | hmem
    · have hblock : (pairCombosFor pr.1 pr.2 choiceGroups).countP
          (fun e => e.1.1 == pr.1 && e.2.1 == pr.2)
            = (pairCombosFor pr.1 pr.2 choiceGroups).length := by
        apply List.countP_eq_length.mpr
        intro e he
        obtain ⟨h1, h2⟩ := pairCombosFor_paths he
        simp [h1, h2]
      have hrest0 : (enumeratePairsAux choiceGroups rest).countP
          (fun e => e.1.1 == pr.1 && e.2.1 == pr.2) = 0 := by
        apply List.countP_eq_zero.mpr
        intro e he hpred
        have hmem := mem_enumeratePairsAux he
        simp only [Bool.and_eq_true, beq_iff_eq] at hpred
        rw [hpred.1, hpred.2] at hmem
        exact hpr' hmem
      rw [hblock, hrest0, pairCombosFor_length]
      omega
    · have hblock0 : (pairCombosFor pr'.1 pr'.2 choiceGroups).countP
          (fun e => e.1.1 == pr.1 && e.2.1 == pr.2) = 0 := by
        apply List.countP_eq_zero.mpr
        intro e he hpred
        obtain ⟨h1, h2⟩ := pairCombosFor_paths he
        simp only [Bool.and_eq_true, beq_iff_eq] at hpred
        apply hpr'
        have h3 : pr.1 = pr'.1 := by rw [← hpred.1, h1]
        have h4 : pr.2 = pr'.2 := by rw [← hpred.2, h2]
        have heq : pr = pr' := by
          obtain ⟨a, b⟩ := pr
          obtain ⟨c, d⟩ := pr'
          simp_all
        rw [← heq]
        exact hmem
      rw [hblock0, ih hrest pr hmem]
      omega

/-- C6: for duplicate-free parameter paths, the enumerated pair set is
duplicate-free, contains exactly 3 value combinations for each
choice-sibling combination and exactly 4 for each unrelated one, and its
cardinality is the sum of those contributions — the exact number
returned by `_count_total_pairs`. -/
theorem pair_enumeration_counts (paths : List String)
    (choiceGroups : List (List String)) (h : paths.Nodup) :
    (enumerateAllPairs paths choiceGroups).Nodup ∧
    (enumerateAllPairs paths choiceGroups).length
      = countTotalPairs paths choiceGroups ∧
    countTotalPairs paths choiceGroups
      = ((listCombos paths).map (fun pr =>
          if areInSameChoiceGroup pr.1 pr.2 choiceGroups then 3 else 4)).sum ∧
    ∀ pr ∈ listCombos paths,
      (enumerateAllPairs paths choiceGroups).countP
          (fun e => e.1.1 == pr.1 && e.2.1 == pr.2)
        = if areInSameChoiceGroup pr.1 pr.2 choiceGroups then 3 else 4 := by
  have hsum : countTotalPairs paths choiceGroups
      = ((listCombos paths).map (fun pr =>
          if areInSameChoiceGroup pr.1 pr.2 choiceGroups then 3 else 4)).sum := by
    unfold countTotalPairs
    rw [foldl_add_eq]
    omega
  refine ⟨enumeratePairsAux_nodup (listCombos_nodup h), ?_, hsum, ?_⟩
  · unfold enumerateAllPairs
    rw [enumeratePairsAux_length, hsum]
  · intro pr hpr
    exact countP_enumeratePairsAux _ (listCombos_nodup h) pr hpr

/-- Witness for `pair_enumeration_counts`: three parameters of which two
form a choice group give `3 + 4 + 4 = 11` target pairs. -/
theorem pair_enumeration_counts_witness :
    (enumerateAllPairs ["a", "b", "c"] [["a", "b"]]).Nodup ∧
    (enumerateAllPairs ["a", "b", "c"] [["a", "b"]]).length
      = countTotalPairs ["a", "b", "c"] [["a", "b"]] ∧
    countTotalPairs ["a", "b", "c"] [["a", "b"]]
      = ((listCombos ["a", "b", "c"]).map (fun pr =>
          if areInSameChoiceGroup pr.1 pr.2 [["a", "b"]] then 3 else 4)).sum ∧
    ∀ pr ∈ listCombos ["a", "b", "c"],
      (enumerateAllPairs ["a", "b", "c"] [["a", "b"]]).countP
          (fun e => e.1.1 == pr.1 && e.2.1 == pr.2)
        = if areInSameChoiceGroup pr.1 pr.2 [["a", "b"]] then 3 else 4 :=
  pair_enumeration_counts ["a", "b", "c"] [["a", "b"]] (by decide)

/-! ## Set-cover greedy selection (`xml_generator.py`,
`SetCoverOptimizer.solve_greedy`) -/

/-- Embeds `XMLSnippet` as the selector sees it: the set of covered
paths and the snippet depth (the XML tree itself plays no role in
selection). -/
structure Snippet where
  coveredPaths : Finset String
  depth : Nat
  deriving DecidableEq

/-- The score computed inside `solve_greedy`:
`coverage_count * (1.0 / (1.0 + snippet.depth * 0.1))`, with the float
arithmetic modelled exactly over `ℚ`. -/
def snippetScore (uncovered : Finset String) (s : Snippet) : ℚ :=
  ((s.coveredPaths ∩ uncovered).card : ℚ)
    * (1 / (1 + (s.depth : ℚ) * (1 / 10)))

/-- One iteration step of the inner loop of `solve_greedy`: snippets with
no new coverage are skipped, and the best (snippet, score) pair is
replaced only on a strictly greater score. -/
def selStep (uncovered : Finset String) (acc : Option Snippet × ℚ)
    (s : Snippet) : Option Snippet × ℚ :=
  let coverageCount := (s.coveredPaths ∩ uncovered).card
  if 0 < coverageCount then
    let score := (coverageCount : ℚ) * (1 / (1 + (s.depth : ℚ) * (1 / 10)))
    if acc.2 < score then (some s, score) else acc
  else acc

/-- Embeds one iteration of `solve_greedy`'s snippet scan: starting from
`best_snippet = None`, `best_score = 0`, fold `selStep` over the
candidate list. -/
def selectBestSnippet (uncovered : Finset String) (snippets : List Snippet) :
    Option Snippet × ℚ :=
  snippets.foldl (selStep uncovered) (none, 0)

/-- `selStep` written with the score named. -/
theorem selStep_eq (uncovered : Finset String) (acc : Option Snippet × ℚ)
    (s : Snippet) :
    selStep uncovered acc s =
      if 0 < (s.coveredPaths ∩ uncovered).card then
        (if acc.2 < snippetScore uncovered s
          then (some s, snippetScore uncovered s) else acc)
      else acc := rfl

/-- A snippet with positive new coverage has a positive score. -/
theorem snippetScore_pos {uncovered : Finset String} {s : Snippet}
    (h : 0 < (s.coveredPaths ∩ uncovered).card) :
    0 < snippetScore uncovered s := by
  unfold snippetScore
  have h1 : (0 : ℚ) < ((s.coveredPaths ∩ uncovered).card : ℚ) := by
    exact_mod_cast h
  have h2 : (0 : ℚ) < 1 + (s.depth : ℚ) * (1 / 10) := by positivity
  positivity

/-- When no remaining candidate beats the accumulator, the fold keeps
it. -/
theorem selectFold_keep (uncovered : Finset String) :
    ∀ (l : List Snippet) (b : Option Snippet) (bs : ℚ),
      (∀ t ∈ l, 0 < (t.coveredPaths ∩ uncovered).card →
        snippetScore uncovered t ≤ bs) →
      l.foldl (selStep uncovered) (b, bs) = (b, bs) := by
  intro l
  induction l with
  | nil => intro b bs _; rfl
  | cons t rest ih =>
    intro b bs hall
    rw [List.foldl_cons]
    have hstep : selStep uncovered (b, bs) t = (b, bs) := by
      rw [selStep_eq]
      split <;> rename_i hpos
      · rw [if_neg]
        exact not_lt.mpr (hall t (List.mem_cons_self _ _) hpos)
      · rfl
    rw [hstep]
    exact ih b bs (fun u hu => hall u (List.mem_cons_of_mem _ hu))

/-- When the list splits as `l₁ ++ s* :: l₂` with every positive
candidate in `l₁` scoring strictly below `s*`, every positive candidate
in `l₂` scoring at most `s*`, and the accumulator score below `s*`, the
fold returns `s*` with its score. -/
theorem selectFold_max (uncovered : Finset String) :
    ∀ (l₁ : List Snippet) (sstar : Snippet) (l₂ : List Snippet)
      (b : Option Snippet) (bs : ℚ),
      0 < (sstar.coveredPaths ∩ uncovered).card →
      bs < snippetScore uncovered sstar →
      (∀ t ∈ l₁, 0 < (t.coveredPaths ∩ uncovered).card →
        snippetScore uncovered t < snippetScore uncovered sstar) →
      (∀ t ∈ l₂, 0 < (t.coveredPaths ∩ uncovered).card →
        snippetScore uncovered t ≤ snippetScore uncovered sstar) →
      (l₁ ++ sstar :: l₂).foldl (selStep uncovered) (b, bs)
        = (some sstar, snippetScore uncovered sstar) := by
  intro l₁
  induction l₁ with
  | nil =>
    intro sstar l₂ b bs hpos hbs _ hl₂
    rw [List.nil_append, List.foldl_cons]
    have hstep : selStep uncovered (b, bs) sstar
        = (some sstar, snippetScore uncovered sstar) := by
      rw [selStep_eq, if_pos hpos, if_pos hbs]
    rw [hstep]
    exact selectFold_keep uncovered l₂ _ _ hl₂
  | cons t l₁ ih =>
    intro sstar l₂ b bs hpos hbs hl₁ hl₂
    rw [List.cons_append, List.foldl_cons]
    have hl₁' : ∀ u ∈ l₁, 0 < (u.coveredPaths ∩ uncovered).card →
        snippetScore uncovered u < snippetScore uncovered sstar :=
      fun u hu => hl₁ u (List.mem_cons_of_mem _ hu)
    by_cases htpos : 0 < (t.coveredPaths ∩ uncovered).card
    · have htlt : snippetScore uncovered t < snippetScore uncovered sstar :=
        hl₁ t (List.mem_cons_self _ _) htpos
      by_cases hup : bs < snippetScore uncovered t
      · have hstep : selStep uncovered (b, bs) t
            = (some t, snippetScore uncovered t) := by
          rw [selStep_eq, if_pos htpos, if_pos hup]
        rw [hstep]
        exact ih sstar l₂ _ _ hpos htlt hl₁' hl₂
      · have hstep : selStep uncovered (b, bs) t = (b, bs) := by
          rw [selStep_eq, if_pos htpos, if_neg hup]
        rw [hstep]
        exact ih sstar l₂ b bs hpos hbs hl₁' hl₂
    · have hstep : selStep uncovered (b, bs) t = (b, bs) := by
        rw [selStep_eq, if_neg htpos]
      rw [hstep]
      exact ih sstar l₂ b bs hpos hbs hl₁' hl₂

/-- The maximal score among candidates with positive new coverage
(`0` when there is none). -/
def maxPosScore (uncovered : Finset String) (snippets : List Snippet) : ℚ :=
  snippets.foldr
    (fun s m => if 0 < (s.coveredPaths ∩ uncovered).card
      then max (snippetScore uncovered s) m else m) 0

/-- `maxPosScore` unfolded one candidate. -/
theorem maxPosScore_cons (uncovered : Finset String) (t : Snippet)
    (rest : List Snippet) :
    maxPosScore uncovered (t :: rest)
      = if 0 < (t.coveredPaths ∩ uncovered).card
        then max (snippetScore uncovered t) (maxPosScore uncovered rest)
        else maxPosScore uncovered rest := rfl

/-- Every positive candidate scores at most `maxPosScore`. -/
theorem le_maxPosScore (uncovered : Finset String) :
    ∀ (snippets : List Snippet), ∀ s ∈ snippets,
      0 < (s.coveredPaths ∩ uncovered).card →
      snippetScore uncovered s ≤ maxPosScore uncovered snippets := by
  intro snippets
  induction snippets with
  | nil => intro s hs; cases hs
  | cons t rest ih =>
    intro s hs hpos
    rw [maxPosScore_cons]
    rcases List.mem_cons.mp hs with rfl | hmem
    · rw [if_pos hpos]
      exact le_max_left _ _
    · by_cases ht : 0 < (t.coveredPaths ∩ uncovered).card
      · rw [if_pos ht]
        exact le_trans (ih s hmem hpos) (le_max_right _ _)
      · rw [if_neg ht]
        exact ih s hmem hpos

/-- With no positive candidate, `maxPosScore` is `0`. -/
theorem maxPosScore_of_none (uncovered : Finset String) :
    ∀ (snippets : List Snippet),
      (∀ s ∈ snippets, ¬ 0 < (s.coveredPaths ∩ uncovered).card) →
      maxPosScore uncovered snippets = 0 := by
  intro snippets
  induction snippets with
  | nil => intro _; rfl
  | cons t rest ih =>
    intro hall
    rw [maxPosScore_cons, if_neg (hall t (List.mem_cons_self _ _))]
    exact ih (fun s hs => hall s (List.mem_cons_of_mem _ hs))

/-- With some positive candidate, `maxPosScore` is attained. -/
theorem maxPosScore_attained (uncovered : Finset String) :
    ∀ (snippets : List Snippet),
      (∃ s ∈ snippets, 0 < (s.coveredPaths ∩ uncovered).card) →
      ∃ s ∈ snippets, 0 < (s.coveredPaths ∩ uncovered).card ∧
        snippetScore uncovered s = maxPosScore uncovered snippets := by
  intro snippets
  induction snippets with
  | nil => intro ⟨s, hs, _⟩; cases hs
  | cons t rest ih =>
    intro h
    by_cases ht : 0 < (t.coveredPaths ∩ uncovered).card
    · by_cases hrest : ∃ s ∈ rest, 0 < (s.coveredPaths ∩ uncovered).card
      · obtain ⟨s, hs, hspos, hscore⟩ := ih hrest
        rcases le_total (maxPosScore uncovered rest) (snippetScore uncovered t)
          with hle | hle
        · refine ⟨t, List.mem_cons_self _ _, ht, ?_⟩
          rw [maxPosScore_cons, if_pos ht]
          exact (max_eq_left hle).symm
        · refine ⟨s, List.mem_cons_of_mem _ hs, hspos, ?_⟩
          rw [maxPosScore_cons, if_pos ht, hscore]
          exact (max_eq_right hle).symm
      · push_neg at hrest
        refine ⟨t, List.mem_cons_self _ _, ht, ?_⟩
        rw [maxPosScore_cons, if_pos ht]
        have h0 : maxPosScore uncovered rest = 0 := by
          apply maxPosScore_of_none
          intro s hs
          exact not_lt.mpr (hrest s hs)
        rw [h0]
        exact (max_eq_left (le_of_lt (snippetScore_pos ht))).symm
    · obtain ⟨s, hs, hspos⟩ := h
      have hsne : s ∈ rest := by
        rcases List.mem_cons.mp hs with rfl | hmem
        · exact absurd hspos ht
        · exact hmem
      obtain ⟨u, hu, hupos, huscore⟩ := ih ⟨s, hsne, hspos⟩
      refine ⟨u, List.mem_cons_of_mem _ hu, hupos, ?_⟩
      rw [maxPosScore_cons, if_neg ht]
      exact huscore

/-- Each list with a member satisfying `P` splits at the first such
member. -/
theorem exists_first_attainer {α : Type} (P : α → Prop) :
    ∀ (l : List α), (∃ x ∈ l, P x) →
      ∃ (l₁ : List α) (x : α) (l₂ : List α),
        l = l₁ ++ x :: l₂ ∧ P x ∧ ∀ y ∈ l₁, ¬ P y := by
  intro l
  induction l with
  | nil => intro ⟨x, hx, _⟩; cases hx
  | cons a l ih =>
    intro h
    by_cases ha : P a
    · exact ⟨[], a, l, rfl, ha, by intro y hy; cases hy⟩
    · obtain ⟨x, hx, hPx⟩ := h
      have hxl : x ∈ l := by
        rcases List.mem_cons.mp hx with rfl | hmem
        · exact absurd hPx ha
        · exact hmem
      obtain ⟨l₁, x', l₂, heq, hPx', hfirst⟩ := ih ⟨x, hxl, hPx⟩
      refine ⟨a :: l₁, x', l₂, by rw [heq, List.cons_append], hPx', ?_⟩
      intro y hy
      rcases List.mem_cons.mp hy with rfl | hmem
      · exact ha
      · exact hfirst y hmem

/-- C7: whenever some candidate snippet covers a still-uncovered item,
the snippet selected by `solve_greedy`'s scan is one attaining the
maximal score `|covered ∩ uncovered| * 1 / (1 + 0.1 * depth)` among
positive-coverage candidates, and it is the earliest such candidate:
every positive-coverage candidate before it scores strictly less. -/
theorem greedy_selects_earliest_max (uncovered : Finset String)
    (snippets : List Snippet)
    (h : ∃ s ∈ snippets, 0 < (s.coveredPaths ∩ uncovered).card) :
    ∃ (l₁ : List Snippet) (sstar : Snippet) (l₂ : List Snippet),
      snippets = l₁ ++ sstar :: l₂ ∧
      selectBestSnippet uncovered snippets
        = (some sstar, snippetScore uncovered sstar) ∧
      0 < (sstar.coveredPaths ∩ uncovered).card ∧
      (∀ t ∈ snippets, 0 < (t.coveredPaths ∩ uncovered).card →
        snippetScore uncovered t ≤ snippetScore uncovered sstar) ∧
      (∀ t ∈ l₁, 0 < (t.coveredPaths ∩ uncovered).card →
        snippetScore uncovered t < snippetScore uncovered sstar) := by
  obtain ⟨l₁, sstar, l₂, heq, ⟨hpos, hscore⟩, hfirst⟩ :=
    exists_first_attainer
      (fun s => 0 < (s.coveredPaths ∩ uncovered).card ∧
        snippetScore uncovered s = maxPosScore uncovered snippets)
      snippets (maxPosScore_attained uncovered snippets h)
  have hglobal : ∀ t ∈ snippets, 0 < (t.coveredPaths ∩ uncovered).card →
      snippetScore uncovered t ≤ snippetScore uncovered sstar := by
    intro t ht htpos
    rw [hscore]
    exact le_maxPosScore uncovered snippets t ht htpos
  have hl₁ : ∀ t ∈ l₁, 0 < (t.coveredPaths ∩ uncovered).card →
      snippetScore uncovered t < snippetScore uncovered sstar := by
    intro t ht htpos
    have hmem : t ∈ snippets := by
      rw [heq]
      exact List.mem_append_left _ ht
    refine lt_of_le_of_ne (hglobal t hmem htpos) ?_
    intro hcontra
    refine hfirst t ht ⟨htpos, ?_⟩
    rw [hcontra]
    exact hscore
  have hl₂ : ∀ t ∈ l₂, 0 < (t.coveredPaths ∩ uncovered).card →
      snippetScore uncovered t ≤ snippetScore uncovered sstar := by
    intro t ht htpos
    have hmem : t ∈ snippets := by
      rw [heq]
      exact List.mem_append_right _ (List.mem_cons_of_mem _ ht)
    exact hglobal t hmem htpos
  refine ⟨l₁, sstar, l₂, heq, ?_, hpos, hglobal, hl₁⟩
  unfold selectBestSnippet
  rw [heq]
  exact selectFold_max uncovered l₁ sstar l₂ none 0 hpos
    (snippetScore_pos hpos) hl₁ hl₂

/-- Witness for `greedy_selects_earliest_max` at two concrete
candidates. -/
theorem greedy_selects_earliest_max_witness :
    ∃ (l₁ : List Snippet) (sstar : Snippet) (l₂ : List Snippet),
      ([⟨{"a"}, 1⟩, ⟨{"a", "b"}, 2⟩] : List Snippet) = l₁ ++ sstar :: l₂ ∧
      selectBestSnippet {"a", "b"} [⟨{"a"}, 1⟩, ⟨{"a", "b"}, 2⟩]
        = (some sstar, snippetScore {"a", "b"} sstar) ∧
      0 < (sstar.coveredPaths ∩ ({"a", "b"} : Finset String)).card ∧
      (∀ t ∈ ([⟨{"a"}, 1⟩, ⟨{"a", "b"}, 2⟩] : List Snippet),
        0 < (t.coveredPaths ∩ ({"a", "b"} : Finset String)).card →
        snippetScore {"a", "b"} t ≤ snippetScore {"a", "b"} sstar) ∧
      (∀ t ∈ l₁, 0 < (t.coveredPaths ∩ ({"a", "b"} : Finset String)).card →
        snippetScore {"a", "b"} t < snippetScore {"a", "b"} sstar) :=
  greedy_selects_earliest_max {"a", "b"} [⟨{"a"}, 1⟩, ⟨{"a", "b"}, 2⟩]
    ⟨⟨{"a"}, 1⟩, by decide, by decide⟩

/-! ## Schema analyzer (`xsd_coverage.py`, class `SchemaAnalyzer`) -/

/-- An `xsd:extension` node as `_process_type` reads it: the optional
`base` type name and the attributes declared directly inside the
extension. -/
structure ExtensionDef where
  base : Option String
  attrs : List String

mutual
/-- A cached `complexType` (or `simpleType`) definition as `_process_type`
reads it: the directly declared attribute names
(`./xsd:attribute[@name]`), the extension nodes (`.//xsd:extension`), and
the direct element children of every content container
(`.//xsd:sequence | .//xsd:choice | .//xsd:all`, then `./xsd:element`). -/
inductive TypeDef : Type where
  | mk (attrs : List String) (exts : List ExtensionDef)
      (children : List ChildDecl)

/-- A direct element child of a content container: a named element with
an optional named type, a named element with an inline `complexType`, or
a `ref` element. -/
inductive ChildDecl : Type where
  | named (name : String) (etype : Option String)
  | inlineElem (name : String) (t : TypeDef)
  | refElem (r : String)
end

/-- Attribute names of a type definition. -/
def TypeDef.attrs : TypeDef → List String
  | .mk a _ _ => a

/-- Extension nodes of a type definition. -/
def TypeDef.exts : TypeDef → List ExtensionDef
  | .mk _ e _ => e

/-- Container element children of a type definition. -/
def TypeDef.children : TypeDef → List ChildDecl
  | .mk _ _ c => c

/-- Embeds `SchemaAnalyzer._remove_ns_prefix`:
`name.split(':')[1]` when the name contains a colon. -/
def removeNsPrefix (name : String) : String :=
  if hasColon name then
    match splitColon name with
    | _ :: x :: _ => x
    | _ => name
  else name

/-- The built-in type names skipped by `_process_type`. -/
def builtinTypes : List String :=
  ["string", "integer", "date", "dateTime", "boolean", "decimal", "float",
   "double", "time", "gYear", "gYearMonth", "gMonth", "gMonthDay", "gDay",
   "hexBinary", "base64Binary", "anyURI", "QName", "NOTATION",
   "normalizedString", "token", "language", "NMTOKEN", "NMTOKENS", "Name",
   "NCName", "ID", "IDREF", "IDREFS", "ENTITY", "ENTITIES", "long", "int",
   "short", "byte", "nonNegativeInteger", "positiveInteger", "unsignedLong",
   "unsignedInt", "unsignedShort", "unsignedByte", "nonPositiveInteger",
   "negativeInteger"]

/-- The (shorter) built-in type list used by `_process_inline_type`. -/
def inlineBuiltinTypes : List String :=
  ["string", "integer", "date", "dateTime", "boolean", "decimal", "float",
   "double"]

/-- The schema model fed to the analyzer: the `type_cache` (local type
name to cached definition) and the schema-level element declarations
(name and optional type), which serve both as the analyzer's root
elements and as the targets of `ref` resolution. -/
structure Schema where
  typeCache : List (String × TypeDef)
  rootElems : List (String × Option String)

/-- `self.type_cache.get(clean_type_name)`. -/
def lookupType (cache : List (String × TypeDef)) (name : String) :
    Option TypeDef :=
  (cache.find? (fun kv => kv.1 == name)).map Prod.snd

/-- A successful cache lookup means the name is a cached type name. -/
theorem lookupType_mem :
    ∀ {cache : List (String × TypeDef)} {name : String},
      (lookupType cache name).isSome → name ∈ cache.map Prod.fst := by
  intro cache
  induction cache with
  | nil => intro name h; cases h
  | cons kv rest ih =>
    intro name h
    unfold lookupType at h
    cases hb : (kv.1 == name) with
    | true =>
      have heq : kv.1 = name := beq_iff_eq.mp hb
      rw [List.map_cons, ← heq]
      exact List.mem_cons_self _ _
    | false =>
      rw [List.find?_cons, hb] at h
      rw [List.map_cons]
      exact List.mem_cons_of_mem _ (ih h)

/-- The number of cached type names whose tracking key at the given path
and depth is not yet in the tracking set (the termination measure of the
extension-base recursion, which re-enters `_process_type` at the same
depth but with one more tracked key). -/
def countUntracked (cache : List (String × TypeDef)) (path : String)
    (depth : Nat) (tracking : List (String × String × Nat)) : Nat :=
  ((cache.map Prod.fst).filter
      (fun n => decide ((path, n, depth) ∉ tracking))).length

/-- Filtering with a pointwise-stronger predicate yields at most as many
elements. -/
theorem length_filter_le_of_imp {α : Type} (p q : α → Bool)
    (himp : ∀ a, q a = true → p a = true) :
    ∀ l : List α, (l.filter q).length ≤ (l.filter p).length := by
  intro l
  induction l with
  | nil => exact Nat.le_refl _
  | cons a l ih =>
    rw [List.filter_cons, List.filter_cons]
    cases hq : q a with
    | true =>
      rw [himp a hq]
      simpa using ih
    | false =>
      cases hp : p a with
      | true => simpa using Nat.le_succ_of_le ih
      | false => simpa using ih
/-- Filtering with a pointwise-stronger predicate that also loses a
witness yields strictly fewer elements. -/
theorem length_filter_lt_of_imp {α : Type} (p q : α → Bool)
    (himp : ∀ a, q a = true → p a = true) :
    ∀ (l : List α) (x : α), x ∈ l → p x = true → q x = false →
      (l.filter q).length < (l.filter p).length := by
  intro l
  induction l with
  | nil => intro x hx; cases hx
  | cons a l ih =>
    intro x hx hpx hqx
    rw [List.filter_cons, List.filter_cons]
    rcases List.mem_cons.mp hx with rfl | hmem
    · rw [hqx, hpx]
      simpa using Nat.lt_succ_of_le (length_filter_le_of_imp p q himp l)
    · cases hq : q a with
      | true =>
        rw [himp a hq]
        simpa using ih x hmem hpx hqx
      | false =>
        cases hp : p a with
        | true => simpa using Nat.lt_succ_of_le (Nat.le_of_lt (ih x hmem hpx hqx))
        | false => simpa using ih x hmem hpx hqx

/-- Adding the current (path, type, depth) key to the tracking set
strictly decreases the number of untracked cached types at that path and
depth. -/
theorem countUntracked_cons_lt {cache : List (String × TypeDef)}
    {path name : String} {depth : Nat}
    {tracking : List (String × String × Nat)}
    (hmem : name ∈ cache.map Prod.fst)
    (hnot : (path, name, depth) ∉ tracking) :
    countUntracked cache path depth ((path, name, depth) :: tracking)
      < countUntracked cache path depth tracking := by
  refine length_filter_lt_of_imp _ _ ?_ _ name hmem ?_ ?_
  · intro a ha
    simp only [decide_eq_true_eq] at ha ⊢
    intro hin
    exact ha (List.mem_cons_of_mem _ hin)
  · simpa using hnot
  · simp

mutual
/-- Embeds `SchemaAnalyzer._process_type`.  Arguments: the type cache,
the schema-level element declarations (for `ref` resolution), the depth
bound, the type name, the current path, the current depth, and the set
of active tracking keys (the `processing_types` set restricted to the
live call stack, since every key is discarded in the `finally` block).
Returns the element paths and attribute paths added by this call,
replacing the source's accumulation into the global sets. -/
def processType (cache : List (String × TypeDef))
    (rootElems : List (String × Option String)) (maxDepth : Nat)
    (typeName : String) (currentPath : String) (depth : Nat)
    (tracking : List (String × String × Nat)) :
    Finset String × Finset String :=
  if hd : maxDepth < depth then (∅, ∅)
  else
    let cleanTypeName := removeNsPrefix typeName
    if hkey : (currentPath, cleanTypeName, depth) ∈ tracking then (∅, ∅)
    else
      let tracking' := (currentPath, cleanTypeName, depth) :: tracking
      if hfind : (lookupType cache cleanTypeName).isSome then
        let typeDef := (lookupType cache cleanTypeName).get hfind
        let directAttrs : Finset String :=
          (typeDef.attrs.map (fun a => currentPath ++ "@" ++ a)).toFinset
        let extResults := typeDef.exts.map (fun ext =>
          let baseResult : Finset String × Finset String :=
            match ext.base with
            | some b =>
              processType cache rootElems maxDepth b currentPath depth tracking'
            | none => (∅, ∅)
          (baseResult.1,
           baseResult.2
             ∪ (ext.attrs.map (fun a => currentPath ++ "@" ++ a)).toFinset))
        let childResults := typeDef.children.map (fun c =>
          match c with
          | .named name etype =>
            let childPath := currentPath ++ "/" ++ name
            match etype with
            | some t =>
              if removeNsPrefix t ∈ builtinTypes then ({childPath}, ∅)
              else
                let r := processType cache rootElems maxDepth t childPath
                  (depth + 1) tracking'
                ({childPath} ∪ r.1, r.2)
            | none => ({childPath}, ∅)
          | .inlineElem name t =>
            let childPath := currentPath ++ "/" ++ name
            let r := processInline cache rootElems maxDepth t childPath
              (depth + 1) tracking'
            ({childPath} ∪ r.1, r.2)
          | .refElem r =>
            let refName := removeNsPrefix r
            let childPath := currentPath ++ "/" ++ refName
            let refResults := (rootElems.filter (fun e => e.1 == refName)).map
              (fun e =>
                match e.2 with
                | some rt => processType cache rootElems maxDepth rt childPath
                    (depth + 1) tracking'
                | none => (∅, ∅))
            ({childPath} ∪ (refResults.map Prod.fst).foldl (· ∪ ·) ∅,
             (refResults.map Prod.snd).foldl (· ∪ ·) ∅))
        ((extResults.map Prod.fst).foldl (· ∪ ·) ∅
           ∪ (childResults.map Prod.fst).foldl (· ∪ ·) ∅,
         directAttrs ∪ (extResults.map Prod.snd).foldl (· ∪ ·) ∅
           ∪ (childResults.map Prod.snd).foldl (· ∪ ·) ∅)
      else (∅, ∅)
termination_by
  (maxDepth + 1 - depth, countUntracked cache currentPath depth tracking)
decreasing_by
  all_goals simp_wf
  all_goals first
    | (apply Prod.Lex.left; omega)
    | (apply Prod.Lex.right
       exact countUntracked_cons_lt (lookupType_mem hfind) hkey)

/-- Embeds `SchemaAnalyzer._process_inline_type`: direct attributes, then
the container element children; a nested inline `complexType` recurses
here, a named non-built-in type (against the shorter built-in list of
this method) re-enters `_process_type`, and `ref`-only children are
skipped (the method has no `ref` branch). -/
def processInline (cache : List (String × TypeDef))
    (rootElems : List (String × Option String)) (maxDepth : Nat)
    (typeDef : TypeDef) (currentPath : String) (depth : Nat)
    (tracking : List (String × String × Nat)) :
    Finset String × Finset String :=
  if hd : maxDepth < depth then (∅, ∅)
  else
    let directAttrs : Finset String :=
      (typeDef.attrs.map (fun a => currentPath ++ "@" ++ a)).toFinset
    let childResults := typeDef.children.map (fun c =>
      match c with
      | .named name etype =>
        let childPath := currentPath ++ "/" ++ name
        match etype with
        | some t =>
          if removeNsPrefix t ∈ inlineBuiltinTypes then ({childPath}, ∅)
          else
            let r := processType cache rootElems maxDepth t childPath
              (depth + 1) tracking
            ({childPath} ∪ r.1, r.2)
        | none => ({childPath}, ∅)
      | .inlineElem name t =>
        let childPath := currentPath ++ "/" ++ name
        let r := processInline cache rootElems maxDepth t childPath
          (depth + 1) tracking
        ({childPath} ∪ r.1, r.2)
      | .refElem _ => (∅, ∅))
    ((childResults.map Prod.fst).foldl (· ∪ ·) ∅,
     directAttrs ∪ (childResults.map Prod.snd).foldl (· ∪ ·) ∅)
termination_by (maxDepth + 1 - depth, 0)
decreasing_by
  all_goals simp_wf
  all_goals apply Prod.Lex.left
  all_goals omega
end

/-- Embeds `SchemaAnalyzer.analyze`: for each schema-level element
declaration, add the root path `/{name}` (prefix stripped) and, when the
element has a type, process it starting at depth `0` with an empty
tracking set. -/
def analyze (schema : Schema) (maxDepth : Nat) :
    Finset String × Finset String :=
  schema.rootElems.foldl (fun acc re =>
    let path := "/" ++ removeNsPrefix re.1
    let acc1 := (insert path acc.1, acc.2)
    match re.2 with
    | some t =>
      let r := processType schema.typeCache schema.rootElems maxDepth t path 0 []
      (acc1.1 ∪ r.1, acc1.2 ∪ r.2)
    | none => acc1) (∅, ∅)

/-- Number of `'/'` separators in a path. -/
def countSlashes (s : String) : Nat :=
  s.data.count '/'

/-- The spec's recursive scenario: root element `R` of type `T`, where
`T` has one child `Sub` also of type `T`. -/
def recursiveSchema : Schema :=
  { typeCache := [("T", TypeDef.mk [] [] [ChildDecl.named "Sub" (some "T")])],
    rootElems := [("R", some "T")] }

/-- C1 (refutation): on the recursive scenario with `max_depth = 3` the
analyzer defines five element paths, including `/R/Sub/Sub/Sub/Sub`
with `max_depth + 2 = 5` slashes: the guard `depth > max_depth` in
`_process_type` still expands types entered at `depth = max_depth`, so
the claimed bound `max_depth + 1` and the claimed four-path set are both
exceeded. -/
theorem recursive_schema_depth_overrun :
    (analyze recursiveSchema 3).1
      = {"/R", "/R/Sub", "/R/Sub/Sub", "/R/Sub/Sub/Sub", "/R/Sub/Sub/Sub/Sub"}
    ∧ "/R/Sub/Sub/Sub/Sub" ∈ (analyze recursiveSchema 3).1
    ∧ countSlashes "/R/Sub/Sub/Sub/Sub" = 5
    ∧ ¬ countSlashes "/R/Sub/Sub/Sub/Sub" ≤ 3 + 1 := by
  have h4 : ∀ tr : List (String × String × Nat),
      processType [("T", TypeDef.mk [] [] [ChildDecl.named "Sub" (some "T")])]
        [("R", some "T")] 3 "T" "/R/Sub/Sub/Sub/Sub" 4 tr = (∅, ∅) := by
    intro tr
    rw [processType.eq_def]
    simp
  have h3 : processType
      [("T", TypeDef.mk [] [] [ChildDecl.named "Sub" (some "T")])]
      [("R", some "T")] 3 "T" "/R/Sub/Sub/Sub" 3
      [("/R/Sub/Sub", "T", 2), ("/R/Sub", "T", 1), ("/R", "T", 0)]
      = ({"/R/Sub/Sub/Sub/Sub"}, ∅) := by
    rw [processType.eq_def]
    simp [lookupType, removeNsPrefix, hasColon, splitColon,
      splitColonAux, builtinTypes, TypeDef.attrs, TypeDef.exts,
      TypeDef.children, h4]
  have h2 : processType
      [("T", TypeDef.mk [] [] [ChildDecl.named "Sub" (some "T")])]
      [("R", some "T")] 3 "T" "/R/Sub/Sub" 2
      [("/R/Sub", "T", 1), ("/R", "T", 0)]
      = ({"/R/Sub/Sub/Sub", "/R/Sub/Sub/Sub/Sub"}, ∅) := by
    rw [processType.eq_def]
    simp [lookupType, removeNsPrefix, hasColon, splitColon,
      splitColonAux, builtinTypes, TypeDef.attrs, TypeDef.exts,
      TypeDef.children, h3]
    decide
  have h1 : processType
      [("T", TypeDef.mk [] [] [ChildDecl.named "Sub" (some "T")])]
      [("R", some "T")] 3 "T" "/R/Sub" 1 [("/R", "T", 0)]
      = ({"/R/Sub/Sub", "/R/Sub/Sub/Sub", "/R/Sub/Sub/Sub/Sub"}, ∅) := by
    rw [processType.eq_def]
    simp [lookupType, removeNsPrefix, hasColon, splitColon,
      splitColonAux, builtinTypes, TypeDef.attrs, TypeDef.exts,
      TypeDef.children, h2]
    decide
  have h0 : processType
      [("T", TypeDef.mk [] [] [ChildDecl.named "Sub" (some "T")])]
      [("R", some "T")] 3 "T" "/R" 0 []
      = ({"/R/Sub", "/R/Sub/Sub", "/R/Sub/Sub/Sub", "/R/Sub/Sub/Sub/Sub"}, ∅) := by
    rw [processType.eq_def]
    simp [lookupType, removeNsPrefix, hasColon, splitColon,
      splitColonAux, builtinTypes, TypeDef.attrs, TypeDef.exts,
      TypeDef.children, h1]
    decide
  have hana : (analyze recursiveSchema 3).1
      = {"/R", "/R/Sub", "/R/Sub/Sub", "/R/Sub/Sub/Sub", "/R/Sub/Sub/Sub/Sub"} := by
    unfold analyze
    simp [recursiveSchema, removeNsPrefix, hasColon, splitColon,
      splitColonAux, h0]
  refine ⟨hana, ?_, by decide, by decide⟩
  rw [hana]
  decide

end XsdCoverage
